import Mathlib

/-!
Verification of the columnar dataset engine of `accelerator`
(`src/accelerator/dataset.py`), as a shallow embedding in Lean.

Column values are modelled as integers (`Val`), the per-type codec hash as
an arbitrary function `Val → Nat`, and Python exceptions as the inductive
`PyErr`.  Each definition mirrors one function (or one code path) of
`dataset.py`; the source line numbers are given in the doc comments.
-/

namespace Accel

/-- Column values.  The codecs are typed, but for the control flow verified
here only equality/order of values matters, so one value type suffices. -/
abbrev Val := Int

/-- The Python exception classes raised by `dataset.py` code paths modelled
here.  `assertionError` models a failing bare `assert`; `datasetUsageError`
models `raise DatasetUsageError(...)` (dataset.py line 94). -/
inductive PyErr where
  | assertionError
  | datasetUsageError
deriving DecidableEq, Repr

/-! ## C2: hashlabel override handling of `DatasetWriter.finish` / `Dataset.append`

`DatasetWriter.__new__` (dataset.py line 903) executes
`obj.hashlabel_override = hashlabel_override,` — note the trailing comma:
the attribute is a 1-tuple, not the boolean argument.  We model the tuple
as a singleton list and Python truthiness of a tuple as nonemptiness. -/

/-- Model of dataset.py line 903: the `hashlabel_override` attribute a
`DatasetWriter` stores is the 1-tuple `(hashlabel_override,)`. -/
def writerStoredOverride (hashlabel_override : Bool) : List Bool :=
  [hashlabel_override]

/-- Python truthiness of a tuple: true iff nonempty. -/
def pyTruthy (t : List Bool) : Bool :=
  !t.isEmpty

/-- Model of the hashlabel handling of `Dataset.append` (dataset.py lines
702-707): on a truthy `hashlabel_override` the parent's hashlabel is
replaced; otherwise, if a hashlabel was given, a bare `assert` compares it
with the parent's.  Returns the resulting hashlabel of the dataset. -/
def appendHashlabel (parentHl newHl : Option String) (overrideTruthy : Bool) :
    Except PyErr (Option String) :=
  if overrideTruthy then .ok newHl
  else
    match newHl with
    | some h => if parentHl = some h then .ok parentHl else .error .assertionError
    | none => .ok parentHl

/-- Model of the `res.append(hashlabel_override=self.hashlabel_override, **args)`
call of `DatasetWriter.finish` (dataset.py lines 1161-1163): the stored
1-tuple is passed, and `Dataset.append` tests its truthiness. -/
def finishParentHashlabel (parentHl newHl : Option String)
    (hashlabel_override : Bool) : Except PyErr (Option String) :=
  appendHashlabel parentHl newHl (pyTruthy (writerStoredOverride hashlabel_override))

/-- C2: the claim says `finish()` on a writer with a parent fails (with
DatasetUsageError) on hashlabel mismatch when `hashlabel_override` is left
False, and that the parent's hashlabel is replaced only when
`hashlabel_override` is set.  The code does neither: because `__new__`
stores the 1-tuple `(hashlabel_override,)`, the override test is always
truthy, so with `hashlabel_override=False` and a parent hashlabel `"a"`
differing from the writer hashlabel `"b"`, `finish` succeeds and silently
replaces the parent's hashlabel by `"b"`. -/
theorem c2_hashlabel_override_bug :
    finishParentHashlabel (some "a") (some "b") false = .ok (some "b") ∧
    pyTruthy (writerStoredOverride false) = true := by
  constructor <;> rfl

/-! ## C9: hashlabel check of `Dataset.iterate_list`

dataset.py lines 472-477: while building the plan, for each dataset `d`,
if a `hashlabel` is requested and `d.hashlabel` differs, the code runs
`assert rehash, ...` and `assert hashlabel in d.columns, ...` — bare
asserts, i.e. `AssertionError`, not `DatasetUsageError`. -/

/-- Model of the per-dataset hashlabel check in `Dataset.iterate_list`
(dataset.py lines 472-477).  Returns the `rehash_on` value for the plan
entry (`some h` when the dataset will be rehashed on `h`, `none` for the
`rehash_on = False` case). -/
def iterateHashlabelCheck (dsHl : Option String) (dsCols : List String)
    (requested : Option String) (rehash : Bool) : Except PyErr (Option String) :=
  match requested with
  | some h =>
    if dsHl ≠ some h then
      if ¬rehash then .error .assertionError
      else if h ∉ dsCols then .error .assertionError
      else .ok (some h)
    else .ok none
  | none => .ok none

/-- C9 counterexample: the claim says a hashlabel mismatch with
`rehash=False` makes the call fail with `DatasetUsageError`.  On the
concrete dataset with hashlabel `"a"` and columns `["a", "b"]`, requesting
hashlabel `"b"` without rehash fails with `AssertionError` (a bare
`assert`), which is not `DatasetUsageError`. -/
theorem c9_usage_error_counterexample :
    iterateHashlabelCheck (some "a") ["a", "b"] (some "b") false
      = .error .assertionError ∧
    iterateHashlabelCheck (some "a") ["a", "b"] (some "b") false
      ≠ .error .datasetUsageError := by
  constructor
  · rfl
  · intro hcontra
    rw [show iterateHashlabelCheck (some "a") ["a", "b"] (some "b") false
          = .error .assertionError from rfl] at hcontra
    exact PyErr.noConfusion (Except.error.inj hcontra)

/-- C9 amended: for every dataset visited by iterate/iterate_list/
iterate_chain where a hashlabel is requested that differs from the
dataset's hashlabel, if rehash is False, or the requested hashlabel column
is absent from the dataset, the call fails — with `AssertionError` (the
checks are bare `assert` statements), not `DatasetUsageError`. -/
theorem c9_hashlabel_mismatch_fails (dsHl : Option String) (dsCols : List String)
    (h : String) (rehash : Bool)
    (hne : dsHl ≠ some h)
    (hfail : rehash = false ∨ h ∉ dsCols) :
    iterateHashlabelCheck dsHl dsCols (some h) rehash = .error .assertionError := by
  unfold iterateHashlabelCheck
  rcases hfail with hf | hf
  · simp [hne, hf]
  · rcases rehash with _ | _ <;> simp [hne, hf]

/-- Witness for `c9_hashlabel_mismatch_fails` at a concrete input. -/
theorem c9_hashlabel_mismatch_fails_witness :
    iterateHashlabelCheck (some "a") ["a", "b"] (some "b") false
      = .error .assertionError :=
  c9_hashlabel_mismatch_fails (some "a") ["a", "b"] "b" false
    (by decide) (Or.inl rfl)

/-! ## C10: `Dataset.chain` and `stop_ds`

dataset.py lines 362-375: a while loop that checks
`length != len(chain) and current != stop_ds` before appending `current`,
then follows `previous`.  The loop is modelled with explicit fuel; the
`length` argument is a Python int (`-1` means unbounded), the chain is
reversed before being returned (`reverse=False` case). -/

/-- Model of the while loop of `Dataset.chain` (dataset.py lines 367-372).
`prev` maps a dataset identity to its `previous` link, `fuel` bounds the
number of iterations (the Python loop has no such bound; every theorem
below holds for every fuel, and fuel 64 is exact for `chain(64)`).  The
accumulator holds the appended datasets in walk order (newest first);
running out of fuel returns the accumulator, which coincides with the
loop-guard exit when the fuel covers the length budget. -/
def chainLoop (prev : Nat → Option Nat) (length : Int) (stop : Option Nat) :
    Nat → Nat → List Nat → List Nat
  | 0, _, acc => acc
  | fuel + 1, current, acc =>
    if length = (acc.length : Int) ∨ some current = stop then acc
    else
      let acc2 := acc ++ [current]
      match prev current with
      | none => acc2
      | some p => chainLoop prev length stop fuel p acc2

/-- Model of `Dataset.chain` with `reverse=False` (dataset.py lines 362-375):
the walked list is reversed, giving oldest→newest order ending at `start`. -/
def chainOf (prev : Nat → Option Nat) (start : Nat) (length : Int)
    (stop : Option Nat) (fuel : Nat) : List Nat :=
  (chainLoop prev length stop fuel start []).reverse

/-- Elements produced by `chainLoop` either come from the accumulator or
passed the `current != stop_ds` test. -/
theorem chainLoop_not_stop (prev : Nat → Option Nat) (length : Int) (stop : Nat) :
    ∀ fuel current acc, ∀ x ∈ chainLoop prev length (some stop) fuel current acc,
      x ∈ acc ∨ x ≠ stop := by
  intro fuel
  induction fuel with
  | zero =>
    intro current acc x hx
    exact Or.inl hx
  | succ fuel ih =>
    intro current acc x hx
    rw [chainLoop] at hx
    split at hx
    · exact Or.inl hx
    · rename_i hcond
      have hcur : current ≠ stop := by
        intro h
        exact hcond (Or.inr (by rw [h]))
      simp only at hx
      split at hx
      · rcases List.mem_append.mp hx with h | h
        · exact Or.inl h
        · right
          rw [List.mem_singleton.mp h]
          exact hcur
      · rcases ih _ _ x hx with h | h
        · rcases List.mem_append.mp h with h | h
          · exact Or.inl h
          · right
            rw [List.mem_singleton.mp h]
            exact hcur
        · exact Or.inr h

/-- C10: `chain(length, reverse, stop_ds)` compares each candidate against
`stop_ds` before appending it, so the stop dataset is never a member of the
returned chain; in particular `d.chain(stop_ds=d)` is the empty chain. -/
theorem c10_chain_excludes_stop (prev : Nat → Option Nat) (length : Int)
    (stop : Nat) (fuel start : Nat) :
    stop ∉ chainOf prev start length (some stop) fuel ∧
    chainOf prev stop length (some stop) fuel = [] := by
  constructor
  · intro hmem
    rw [chainOf, List.mem_reverse] at hmem
    rcases chainLoop_not_stop prev length stop fuel start [] stop hmem with h | h
    · simp at h
    · exact h rfl
  · cases fuel with
    | zero => rfl
    | succ fuel =>
      unfold chainOf chainLoop
      simp

/-! ## C3: range pruning soundness

`range_check_function` (dataset.py lines 1223-1237) compiles the predicate
`bottom <= v < top` with optional bounds.  `Dataset.iterate_list` (lines
458-471) disables a range whose two bounds are both unset and prunes whole
datasets by their recorded `min`/`max`; `Dataset._iterate_datasets` (lines
655-665) applies the row-level check only when `min` or `max` violates a
bound. -/

/-- Model of `range_check_function` (dataset.py lines 1223-1237), with the
same case structure: `top is None` / `bottom is None` give the one-sided
predicates, both set gives `bottom <= v < top`, both unset gives the
constant true function. -/
def range_check_function (bottom top : Option Val) : Val → Bool :=
  match top with
  | none =>
    match bottom with
    | none => fun _ => true
    | some b => fun v => b ≤ v
  | some t =>
    match bottom with
    | none => fun v => v < t
    | some b => fun v => b ≤ v && v < t

/-- One dataset as seen by a range iteration: the values of the range
column in the iterated slice(s) and the recorded column `min`/`max`. -/
structure RangeDs where
  values : List Val
  cmin : Val
  cmax : Val
deriving DecidableEq, Repr

/-- Dataset-level pruning test `c.min >= range_top` of `Dataset.iterate_list`
(dataset.py line 468), guarded by `range_top is not None`. -/
def pruneByMin (hi : Option Val) (d : RangeDs) : Bool :=
  match hi with
  | some t => decide (t ≤ d.cmin)
  | none => false

/-- Dataset-level pruning test `c.max < range_bottom` of `Dataset.iterate_list`
(dataset.py line 470), guarded by `range_bottom is not None`. -/
def pruneByMax (lo : Option Val) (d : RangeDs) : Bool :=
  match lo with
  | some b => decide (d.cmax < b)
  | none => false

/-- Row-level check trigger of `Dataset._iterate_datasets` (dataset.py line
657): the per-row range check is applied only when the recorded `min` or
`max` of the dataset violates a bound. -/
def rangeNeedsFilter (lo hi : Option Val) (d : RangeDs) : Bool :=
  !(range_check_function lo hi d.cmin) || !(range_check_function lo hi d.cmax)

/-- Model of iterating the range column of a list of datasets with
`range={col: (lo, hi)}` and `sloppy_range=False`: the range disabling and
dataset-level pruning of `Dataset.iterate_list` (dataset.py lines 458-471,
including the `sum(lines) == 0` skip) followed by the conditional
row-level check of `Dataset._iterate_datasets` (lines 655-665). -/
def iterateWithRange (lo hi : Option Val) (dss : List RangeDs) : List Val :=
  if lo = none ∧ hi = none then
    dss.flatMap (fun d => if d.values.isEmpty then [] else d.values)
  else
    dss.flatMap (fun d =>
      if d.values.isEmpty then []
      else if pruneByMin hi d then []
      else if pruneByMax lo d then []
      else if rangeNeedsFilter lo hi d then
        d.values.filter (range_check_function lo hi)
      else d.values)

/-- The compiled range predicate means `lo ≤ v` (when set) and `v < hi`
(when set). -/
theorem range_check_iff (lo hi : Option Val) (v : Val) :
    range_check_function lo hi v = true ↔
      ((∀ b, lo = some b → b ≤ v) ∧ (∀ t, hi = some t → v < t)) := by
  rcases lo with _ | b <;> rcases hi with _ | t <;>
    simp [range_check_function]

/-- C3: with `range={c: (lo, hi)}` and `sloppy_range=False`, every yielded
value `v` of column `c` satisfies `lo ≤ v < hi`, an unset bound imposing no
constraint, provided the recorded per-dataset `min`/`max` bound the column
values (spec invariant 3).  When both bounds are unset the range is
disabled entirely and iteration is unfiltered. -/
theorem c3_range_soundness (lo hi : Option Val) (dss : List RangeDs)
    (hmm : ∀ d ∈ dss, ∀ v ∈ d.values, d.cmin ≤ v ∧ v ≤ d.cmax) :
    ((lo = none ∧ hi = none) →
      iterateWithRange lo hi dss
        = dss.flatMap (fun d => if d.values.isEmpty then [] else d.values)) ∧
    (∀ v ∈ iterateWithRange lo hi dss,
      (∀ b, lo = some b → b ≤ v) ∧ (∀ t, hi = some t → v < t)) := by
  constructor
  · intro hdis
    rw [iterateWithRange, if_pos hdis]
  · intro v hv
    rw [iterateWithRange] at hv
    split at hv
    · rename_i hdis
      constructor
      · intro b hb; rw [hdis.1] at hb; exact absurd hb (by simp)
      · intro t ht; rw [hdis.2] at ht; exact absurd ht (by simp)
    · rw [← range_check_iff]
      rcases List.mem_flatMap.mp hv with ⟨d, hd, hvd⟩
      split at hvd
      · simp at hvd
      · split at hvd
        · simp at hvd
        · split at hvd
          · simp at hvd
          · split at hvd
            · exact (List.mem_filter.mp hvd).2
            · rename_i hnofilter
              have hnf : range_check_function lo hi d.cmin = true ∧
                  range_check_function lo hi d.cmax = true := by
                have : rangeNeedsFilter lo hi d = false :=
                  Bool.not_eq_true _ ▸ eq_false_of_ne_true hnofilter
                simpa [rangeNeedsFilter] using this
              have hbound := hmm d hd v hvd
              obtain ⟨hnf1, hnf2⟩ := hnf
              rw [range_check_iff] at hnf1 hnf2
              obtain ⟨hminlo, _⟩ := hnf1
              obtain ⟨_, hmaxhi⟩ := hnf2
              rw [range_check_iff]
              constructor
              · intro b hb
                exact le_trans (hminlo b hb) hbound.1
              · intro t ht
                exact lt_of_le_of_lt hbound.2 (hmaxhi t ht)

/-- Witness for `c3_range_soundness` at a concrete input: two datasets,
bounds `[3, 11)`; the value 5 is yielded and satisfies both bounds. -/
theorem c3_range_soundness_witness : (3 : Val) ≤ 5 ∧ (5 : Val) < 11 :=
  have h := (c3_range_soundness (some 3) (some 11)
    [⟨[1, 5], 1, 5⟩, ⟨[10, 12], 10, 12⟩] (by decide)).2 5 (by decide)
  ⟨h.1 3 rfl, h.2 11 rfl⟩

/-! ## C6: small-slice merge of `Dataset._maybe_merge`

dataset.py lines 776-799: with fewer than 2 slices nothing happens;
otherwise the per-slice file sizes are measured and if their true-division
mean `sum(sizes) / slices` exceeds 524288 nothing happens; otherwise the
per-slice files are concatenated in slice order into one file named with
the `'m'` placeholder (each per-slice file being deleted as it is copied),
and the running start position of each slice is recorded as `offsets`. -/

/-- Storage state of one column after `_maybe_merge`: either the per-slice
files are kept (and `offsets` stays unset), or a single merged file exists
together with per-slice `offsets`. -/
inductive ColStore where
  | sliced (files : List (List Val))
  | merged (mfile : List Val) (offsets : List Nat)
deriving DecidableEq, Repr

/-- Model of the offsets loop of `_maybe_merge` (dataset.py lines 784-794):
`pos` starts at 0, each slice records the current `pos` and advances it by
its size. -/
def offsetsLoop : Nat → List Nat → List Nat
  | _, [] => []
  | pos, sz :: rest => pos :: offsetsLoop (pos + sz) rest

/-- Model of `Dataset._maybe_merge` (dataset.py lines 776-799) for one
column, with each per-slice file given as its byte content.  The Python
comparison `sum(sizes) / slices > 524288` is true division; for the
integer sizes involved it is equivalent to
`sum(sizes) > 524288 * slices`. -/
def maybe_merge (slices : Nat) (files : List (List Val)) : ColStore :=
  if slices < 2 then .sliced files
  else
    let sizes := files.map List.length
    if 524288 * slices < sizes.sum then .sliced files
    else .merged files.flatten (offsetsLoop 0 sizes)

theorem offsetsLoop_length (pos : Nat) (sizes : List Nat) :
    (offsetsLoop pos sizes).length = sizes.length := by
  induction sizes generalizing pos with
  | nil => rfl
  | cons sz rest ih => simp [offsetsLoop, ih]

/-- Each recorded offset is the cumulative starting byte position of its
slice. -/
theorem offsetsLoop_getD (pos : Nat) (sizes : List Nat) :
    ∀ s, s < sizes.length →
      (offsetsLoop pos sizes).getD s 0 = pos + (sizes.take s).sum := by
  induction sizes generalizing pos with
  | nil => intro s hs; simp at hs
  | cons sz rest ih =>
    intro s hs
    match s with
    | 0 => simp [offsetsLoop]
    | s + 1 =>
      simp only [offsetsLoop, List.getD_cons_succ, List.take_succ_cons,
        List.sum_cons]
      rw [ih (pos + sz) s (by simpa using hs)]
      omega

/-- C6: after `finish`, for every column, if `slices >= 2` and the
arithmetic mean of the per-slice file sizes is at most 524288 bytes, the
per-slice files are concatenated in slice order into a single merged file
and `offsets[s]` becomes the cumulative starting byte position of slice
`s`; otherwise (mean above 524288, or fewer than 2 slices) the per-slice
files remain and no offsets are recorded.  The mean condition
`sum / slices ≤ 524288` is stated in ℚ exactly as the claim reads and
related to the integer comparison the code performs. -/
theorem c6_merge_threshold (slices : Nat) (files : List (List Val)) :
    (2 ≤ slices → (files.map List.length).sum ≤ 524288 * slices →
      maybe_merge slices files
        = .merged files.flatten (offsetsLoop 0 (files.map List.length)) ∧
      (∀ s, s < files.length →
        (offsetsLoop 0 (files.map List.length)).getD s 0
          = ((files.map List.length).take s).sum) ∧
      (offsetsLoop 0 (files.map List.length)).length = files.length) ∧
    (2 ≤ slices → 524288 * slices < (files.map List.length).sum →
      maybe_merge slices files = .sliced files) ∧
    (slices < 2 → maybe_merge slices files = .sliced files) ∧
    (0 < slices →
      (((files.map List.length).sum : ℚ) / (slices : ℚ) ≤ 524288 ↔
        (files.map List.length).sum ≤ 524288 * slices)) := by
  refine ⟨?_, ?_, ?_, ?_⟩
  · intro h2 hsum
    refine ⟨?_, ?_, ?_⟩
    · rw [maybe_merge, if_neg (by omega)]
      simp only
      rw [if_neg (by omega)]
    · intro s hs
      rw [offsetsLoop_getD 0 (files.map List.length) s (by simpa using hs)]
      omega
    · rw [offsetsLoop_length]
      simp
  · intro h2 hsum
    rw [maybe_merge, if_neg (by omega)]
    simp only
    rw [if_pos (by omega)]
  · intro h2
    rw [maybe_merge, if_pos h2]
  · intro hpos
    rw [div_le_iff₀ (by exact_mod_cast hpos)]
    rw [show (524288 : ℚ) * (slices : ℚ) = ((524288 * slices : Nat) : ℚ) by
      push_cast
      ring]
    exact Nat.cast_le

/-- Witness for `c6_merge_threshold` at a concrete input: 2 slices of 2
bytes each merge with offsets `[0, 2]`; the mean equivalence holds. -/
theorem c6_merge_threshold_witness :
    maybe_merge 2 [[7, 8], [9, 10]] = .merged [7, 8, 9, 10] [0, 2] ∧
    maybe_merge 1 [[7, 8]] = .sliced [[7, 8]] := by
  constructor
  · exact ((c6_merge_threshold 2 [[7, 8], [9, 10]]).1 (by decide) (by decide)).1
  · exact (c6_merge_threshold 1 [[7, 8]]).2.2.1 (by decide)

/-! ## C7: chain cache of `Dataset._update_caches`

dataset.py lines 763-774: both cache keys are first removed; when
`previous` is set, `cache_distance` becomes the predecessor's
`cache_distance` (defaulting to 1 when the key is missing) plus one; when
that reaches 64 it is reset to 0 and `cache` is set to the `(identity,
metadata)` pairs of `self.chain(64)[:-1]`. -/

/-- The part of a dataset's pickled metadata that `_update_caches` reads:
the `previous` link and the `cache_distance` key (absent when `previous`
is unset). -/
structure DsRec where
  previous : Option Nat
  cache_distance : Option Nat
deriving DecidableEq, Repr

/-- The `previous`-link map induced by an environment of dataset records. -/
def prevOf (env : Nat → DsRec) (i : Nat) : Option Nat :=
  (env i).previous

/-- Model of `Dataset._update_caches` (dataset.py lines 763-774): returns
the `cache_distance` and `cache` entries of the new metadata (both `none`
models the deleted keys).  `self.chain(64)` runs at most 64 loop
iterations, so fuel 64 is exact. -/
def update_caches (env : Nat → DsRec) (self : Nat) :
    Option Nat × Option (List (Nat × DsRec)) :=
  match (env self).previous with
  | none => (none, none)
  | some p =>
    let cd := ((env p).cache_distance).getD 1 + 1
    if cd = 64 then
      (some 0,
       some (((chainOf (prevOf env) self 64 none 64).dropLast).map
         (fun i => (i, env i))))
    else (some cd, none)

/-- Prepending already-collected elements to the accumulator shifts the
remaining length budget of the chain loop. -/
theorem chainLoop_shift (prev : Nat → Option Nat) (stop : Option Nat) :
    ∀ (fuel c : Nat) (pre acc : List Nat) (L : Int),
      chainLoop prev L stop fuel c (pre ++ acc)
        = pre ++ chainLoop prev (L - pre.length) stop fuel c acc := by
  intro fuel
  induction fuel with
  | zero =>
    intro c pre acc L
    rfl
  | succ fuel ih =>
    intro c pre acc L
    have hiff : (L = ((pre ++ acc).length : Int) ∨ some c = stop) ↔
        (L - (pre.length : Int) = (acc.length : Int) ∨ some c = stop) := by
      constructor <;>
        (rintro (h | h)
         · left
           simp only [List.length_append] at h ⊢
           push_cast at h ⊢
           omega
         · exact Or.inr h)
    by_cases hc : L - (pre.length : Int) = (acc.length : Int) ∨ some c = stop
    · rw [chainLoop, chainLoop, if_pos (hiff.mpr hc), if_pos hc]
    · rw [chainLoop, chainLoop, if_neg (fun h => hc (hiff.mp h)), if_neg hc]
      simp only [List.append_assoc]
      cases prev c with
      | none => rfl
      | some p => exact ih p pre (acc ++ [c]) L

/-- Every identity collected by the chain loop comes from the accumulator
or is bounded by the starting identity, provided `previous` links strictly
decrease. -/
theorem chainLoop_le (prev : Nat → Option Nat) (L : Int) (stop : Option Nat)
    (hacyc : ∀ i j, prev i = some j → j < i) :
    ∀ fuel c acc, ∀ x ∈ chainLoop prev L stop fuel c acc, x ∈ acc ∨ x ≤ c := by
  intro fuel
  induction fuel with
  | zero =>
    intro c acc x hx
    exact Or.inl hx
  | succ fuel ih =>
    intro c acc x hx
    rw [chainLoop] at hx
    split at hx
    · exact Or.inl hx
    · simp only at hx
      split at hx
      · rcases List.mem_append.mp hx with h | h
        · exact Or.inl h
        · exact Or.inr (le_of_eq (List.mem_singleton.mp h))
      · rename_i p hp
        rcases ih p (acc ++ [c]) x hx with h | h
        · rcases List.mem_append.mp h with h | h
          · exact Or.inl h
          · exact Or.inr (le_of_eq (List.mem_singleton.mp h))
        · exact Or.inr (le_trans h (le_of_lt (hacyc c p hp)))

/-- Unfolding the first iteration of `self.chain(64)` when `previous`
points at `p`: the chain is `self` consed onto the walk from `p` with
budget 63. -/
theorem chainLoop_start (prev : Nat → Option Nat) (self p : Nat)
    (hprev : prev self = some p) :
    chainLoop prev 64 none 64 self []
      = self :: chainLoop prev 63 none 63 p [] := by
  rw [show (64 : Nat) = 63 + 1 from rfl, chainLoop, if_neg (by simp)]
  simp only [List.nil_append, hprev]
  have h := chainLoop_shift prev none 63 p [self] [] 64
  simpa using h

/-- C7: when a dataset's `previous` is set and the predecessor's
`cache_distance` is `k`, `_update_caches` stores `cache_distance = k + 1`
and no cache — except when that counter reaches 64: then it resets to 0
and stores a cache holding exactly the (identity, metadata) pairs of the
63 preceding chain members in chain order (the 63-long chain of the
predecessor), never including the dataset itself. -/
theorem c7_chain_cache (env : Nat → DsRec) (self p k : Nat)
    (hprev : (env self).previous = some p)
    (hk : (env p).cache_distance = some k)
    (hacyc : ∀ i j, (env i).previous = some j → j < i)
    (hfull : k + 1 = 64 → (chainOf (prevOf env) self 64 none 64).length = 64) :
    (k + 1 ≠ 64 → update_caches env self = (some (k + 1), none)) ∧
    (k + 1 = 64 →
      update_caches env self
        = (some 0, some (((chainOf (prevOf env) self 64 none 64).dropLast).map
            (fun i => (i, env i)))) ∧
      (chainOf (prevOf env) self 64 none 64).dropLast
        = chainOf (prevOf env) p 63 none 63 ∧
      ((chainOf (prevOf env) self 64 none 64).dropLast).length = 63 ∧
      ∀ q ∈ ((chainOf (prevOf env) self 64 none 64).dropLast).map
          (fun i => (i, env i)), q.1 ≠ self) := by
  have hstart : chainLoop (prevOf env) 64 none 64 self []
      = self :: chainLoop (prevOf env) 63 none 63 p [] :=
    chainLoop_start (prevOf env) self p hprev
  have hdrop : (chainOf (prevOf env) self 64 none 64).dropLast
      = chainOf (prevOf env) p 63 none 63 := by
    rw [chainOf, hstart, List.reverse_cons, List.dropLast_concat, chainOf]
  constructor
  · intro hne
    rw [update_caches, hprev]
    simp only [hk, Option.getD_some]
    rw [if_neg hne]
  · intro heq
    refine ⟨?_, hdrop, ?_, ?_⟩
    · rw [update_caches, hprev]
      simp only [hk, Option.getD_some]
      rw [if_pos heq]
    · rw [List.length_dropLast, hfull heq]
    · intro q hq
      rcases List.mem_map.mp hq with ⟨i, hi, hqi⟩
      rw [hdrop, chainOf, List.mem_reverse] at hi
      have hle : i ≤ p := by
        rcases chainLoop_le (prevOf env) 63 none
            (fun a b h => hacyc a b h) 63 p [] i hi with h | h
        · simp at h
        · exact h
      have hplt : p < self := hacyc self p hprev
      rw [← hqi]
      simp only
      omega

/-- A linear environment of 65 datasets `0, …, 64`: dataset `i + 1` has
previous `i`, dataset `i ≠ 0` has `cache_distance = i`. -/
def env65 : Nat → DsRec :=
  fun i => ⟨if i = 0 then none else some (i - 1),
            if i = 0 then none else some i⟩

/-- Witness for `c7_chain_cache`: in `env65`, dataset 64 (whose predecessor
63 carries `cache_distance = 63`) gets `cache_distance = 0` and a cache of
exactly 63 entries. -/
theorem c7_chain_cache_witness :
    (update_caches env65 64).1 = some 0 ∧
    ((chainOf (prevOf env65) 64 64 none 64).dropLast).length = 63 := by
  have h := c7_chain_cache env65 64 63 63 rfl rfl
    (by
      intro i j hj
      match i with
      | 0 => simp [env65] at hj
      | i + 1 =>
        simp [env65] at hj
        omega)
    (fun _ => by decide)
  have h64 := h.2 rfl
  exact ⟨by rw [h64.1], h64.2.2.1⟩

/-! ## C4 and C5: the writer's write paths

`DatasetWriter._mksplit` (dataset.py lines 1059-1106) builds the three
Mode-B split functions: with a hashlabel the writer list is indexed by
`hash(value) % slices`, without one by `next(cycle(range(slices)))`; all
columns of the chosen slice are then written.  `DatasetWriter._mkwritefuncs`
(lines 992-1040) builds the Mode-A `write` / `write_list` / `write_dict`
functions for the currently set slice, where the hashlabel column's writer
is a filtering writer (it only stores values hashing to this slice and
reports whether it did). -/

/-- Static configuration of a Mode-B split writer: slice count, number of
columns, logical column names in add-order (`self._order`), hashlabel
position in that order, and the codec hash function. -/
structure SplitParams where
  slices : Nat
  n : Nat
  names : List String
  hl : Option Nat
  hash : Val → Nat

/-- Mutable state of a Mode-B split writer: the per-slice per-column file
contents, and the position of the `cycle(range(slices))` iterator used for
round-robin routing. -/
structure SplitState where
  files : List (List (List Val))
  cyc : Nat
deriving DecidableEq, Repr

/-- One `typed_writer.write` call: append a value to column `c`. -/
def wAppend (cols : List (List Val)) (c : Nat) (v : Val) : List (List Val) :=
  cols.set c (cols.getD c [] ++ [v])

/-- Write one value to every column `0, …, n-1`, column `ix` receiving
`get ix` (the column loop of the generated write functions). -/
def appendRow (n : Nat) (cols : List (List Val)) (get : Nat → Val) :
    List (List Val) :=
  (List.range n).foldl (fun cs ix => wAppend cs ix (get ix)) cols

/-- Fresh Mode-B state: `slices × n` empty files, cycle at 0. -/
def initSplit (p : SplitParams) : SplitState :=
  ⟨List.replicate p.slices (List.replicate p.n []), 0⟩

/-- Model of the generated `split` function (dataset.py lines 1069, 1086,
1092, 1097): positional arguments in add-order.  Returns the new state and
the slice the row was routed to. -/
def split_write (p : SplitParams) (st : SplitState) (args : List Val) :
    SplitState × Nat :=
  match p.hl with
  | some hix =>
    let s := p.hash (args.getD hix 0) % p.slices
    (⟨st.files.set s (appendRow p.n (st.files.getD s []) (fun ix => args.getD ix 0)),
      st.cyc⟩, s)
  | none =>
    let s := st.cyc % p.slices
    (⟨st.files.set s (appendRow p.n (st.files.getD s []) (fun ix => args.getD ix 0)),
      st.cyc + 1⟩, s)

/-- Model of the generated `split_list` function (dataset.py lines 1070,
1087, 1092, 1098): a sequence indexed by column position. -/
def split_write_list (p : SplitParams) (st : SplitState) (v : List Val) :
    SplitState × Nat :=
  match p.hl with
  | some hix =>
    let s := p.hash (v.getD hix 0) % p.slices
    (⟨st.files.set s (appendRow p.n (st.files.getD s []) (fun ix => v.getD ix 0)),
      st.cyc⟩, s)
  | none =>
    let s := st.cyc % p.slices
    (⟨st.files.set s (appendRow p.n (st.files.getD s []) (fun ix => v.getD ix 0)),
      st.cyc + 1⟩, s)

/-- Model of the generated `split_dict` function (dataset.py lines 1071,
1088, 1092, 1099): a mapping keyed by logical column names. -/
def split_write_dict (p : SplitParams) (st : SplitState) (d : String → Val) :
    SplitState × Nat :=
  match p.hl with
  | some hix =>
    let s := p.hash (d (p.names.getD hix "")) % p.slices
    (⟨st.files.set s (appendRow p.n (st.files.getD s [])
        (fun ix => d (p.names.getD ix ""))),
      st.cyc⟩, s)
  | none =>
    let s := st.cyc % p.slices
    (⟨st.files.set s (appendRow p.n (st.files.getD s [])
        (fun ix => d (p.names.getD ix ""))),
      st.cyc + 1⟩, s)

/-- Run a sequence of split writes, collecting the routed slice of each
row in order. -/
def splitRun (p : SplitParams) : SplitState → List (List Val) → SplitState × List Nat
  | st, [] => (st, [])
  | st, r :: rs =>
    ((splitRun p (split_write p st r).1 rs).1,
     (split_write p st r).2 :: (splitRun p (split_write p st r).1 rs).2)

theorem splitRun_trace_hash (p : SplitParams) (hix : Nat) (hhl : p.hl = some hix) :
    ∀ (rows : List (List Val)) (st : SplitState),
      (splitRun p st rows).2 = rows.map (fun r => p.hash (r.getD hix 0) % p.slices) := by
  intro rows
  induction rows with
  | nil => intro st; rfl
  | cons r rs ih =>
    intro st
    simp only [splitRun, List.map_cons]
    rw [ih]
    simp [split_write, hhl]

theorem splitRun_trace_cyc (p : SplitParams) (hhl : p.hl = none) :
    ∀ (rows : List (List Val)) (st : SplitState),
      (splitRun p st rows).2
        = (List.range' st.cyc rows.length).map (· % p.slices) := by
  intro rows
  induction rows with
  | nil => intro st; rfl
  | cons r rs ih =>
    intro st
    have hx2 : (split_write p st r).2 = st.cyc % p.slices := by
      simp [split_write, hhl]
    have hcyc : (split_write p st r).1.cyc = st.cyc + 1 := by
      simp [split_write, hhl]
    simp only [splitRun, List.length_cons, List.range'_succ, List.map_cons]
    rw [hx2, ih (split_write p st r).1, hcyc]

/-- C4: in a Mode-B split write with a hashlabel, every row `r` is routed
to slice `hash(r[hashlabel]) mod slices`; without a hashlabel, consecutive
writes go to slices `0, 1, …, slices-1, 0, …` cyclically, regardless of
the values written. -/
theorem c4_split_routing (p : SplitParams) (rows : List (List Val)) :
    (∀ hix, p.hl = some hix →
      (splitRun p (initSplit p) rows).2
        = rows.map (fun r => p.hash (r.getD hix 0) % p.slices)) ∧
    (p.hl = none →
      (splitRun p (initSplit p) rows).2
        = (List.range rows.length).map (· % p.slices)) := by
  constructor
  · intro hix hhl
    exact splitRun_trace_hash p hix hhl rows (initSplit p)
  · intro hhl
    rw [List.range_eq_range']
    exact splitRun_trace_cyc p hhl rows (initSplit p)

/-- A hash-split configuration with 2 slices, one `int64`-like column,
hashlabel on it. -/
def pHashW : SplitParams :=
  ⟨2, 1, ["x"], some 0, fun v => v.natAbs⟩

/-- A round-robin split configuration: 3 slices, one column, no
hashlabel. -/
def pCycW : SplitParams :=
  ⟨3, 1, ["x"], none, fun v => v.natAbs⟩

/-- Witness for `c4_split_routing`: hash routing sends 3 and 4 to slices
1 and 0 of 2; round-robin routing sends four writes to slices 0,1,2,0. -/
theorem c4_split_routing_witness :
    (splitRun pHashW (initSplit pHashW) [[3], [4]]).2 = [1, 0] ∧
    (splitRun pCycW (initSplit pCycW) [[7], [7], [7], [7]]).2 = [0, 1, 2, 0] := by
  constructor
  · rw [(c4_split_routing pHashW [[3], [4]]).1 0 rfl]
    decide
  · rw [(c4_split_routing pCycW [[7], [7], [7], [7]]).2 rfl]
    decide

/-! ### C5: the three write surfaces

Mode-A (`set_slice`) surfaces from `_mkwritefuncs` (dataset.py lines
992-1040).  The hashlabel column's writer is the filtering writer opened
by `_mkwriters` (lines 983-986): its `write` stores the value only when it
hashes to the current slice and returns whether it did.  The generated
`write`/`write_list` special-case `len(names) == 1` ("only the hashlabel,
no check needed", line 1023) and then never raise; `write_dict` (lines
1000-1005) always raises on a wrong-slice value unless discard is on. -/

/-- Static configuration of a Mode-A (per-slice) writer: column count,
logical names in add-order, hashlabel position, codec hash, the slice set
by `set_slice` and the total slice count. -/
structure SliceParams where
  n : Nat
  names : List String
  hl : Option Nat
  hash : Val → Nat
  sliceno : Nat
  slices : Nat

/-- The `hashcheck` of the filtering writer (`hashfilter=(sliceno, slices)`):
does the value hash to the writer's slice? -/
def hashOk (p : SliceParams) (v : Val) : Bool :=
  p.hash v % p.slices == p.sliceno

/-- Model of the generated Mode-A `write` (dataset.py lines 1021-1038):
positional arguments in add-order.  With a single column (necessarily the
hashlabel when one is set) the value is passed straight to the (filtering)
writer with no check; otherwise the hashlabel writer is called first and
on rejection the other columns are skipped and `DatasetUsageError` raised
unless discard is enabled. -/
def modeA_write (p : SliceParams) (discard : Bool) (files : List (List Val))
    (args : List Val) : Except PyErr (List (List Val)) :=
  if p.n == 1 then
    match p.hl with
    | some _ =>
      .ok (if hashOk p (args.getD 0 0) then wAppend files 0 (args.getD 0 0) else files)
    | none => .ok (wAppend files 0 (args.getD 0 0))
  else
    match p.hl with
    | some hix =>
      if hashOk p (args.getD hix 0) then
        .ok (appendRow p.n files (fun ix => args.getD ix 0))
      else if discard then .ok files
      else .error .datasetUsageError
    | none => .ok (appendRow p.n files (fun ix => args.getD ix 0))

/-- Model of the generated Mode-A `write_list` (dataset.py lines 1022-1039):
a sequence indexed by column position. -/
def modeA_write_list (p : SliceParams) (discard : Bool) (files : List (List Val))
    (v : List Val) : Except PyErr (List (List Val)) :=
  if p.n == 1 then
    match p.hl with
    | some _ =>
      .ok (if hashOk p (v.getD 0 0) then wAppend files 0 (v.getD 0 0) else files)
    | none => .ok (wAppend files 0 (v.getD 0 0))
  else
    match p.hl with
    | some hix =>
      if hashOk p (v.getD hix 0) then
        .ok (appendRow p.n files (fun ix => v.getD ix 0))
      else if discard then .ok files
      else .error .datasetUsageError
    | none => .ok (appendRow p.n files (fun ix => v.getD ix 0))

/-- Model of the Mode-A `write_dict` closure (dataset.py lines 1000-1013):
a mapping keyed by logical column names.  When a hashlabel is set the
filtering writer is tried first and a wrong-slice value raises
`DatasetUsageError` unless discard is enabled — with no single-column
special case. -/
def modeA_write_dict (p : SliceParams) (discard : Bool) (files : List (List Val))
    (d : String → Val) : Except PyErr (List (List Val)) :=
  match p.hl with
  | some hix =>
    if hashOk p (d (p.names.getD hix "")) then
      .ok (appendRow p.n files (fun ix => d (p.names.getD ix "")))
    else if discard then .ok files
    else .error .datasetUsageError
  | none => .ok (appendRow p.n files (fun ix => d (p.names.getD ix "")))

/-- A Mode-A writer whose only column is the hashlabel: 2 slices, writing
slice 0, no discard. -/
def pOneColW : SliceParams :=
  ⟨1, ["x"], some 0, fun v => v.natAbs, 0, 2⟩

/-- C5 counterexample: the claim says the three write surfaces produce
identical results including error behaviour.  For a Mode-A writer whose
only column is the hashlabel, writing value 1 (which hashes to slice 1,
not the writer's slice 0) without discard: `write` silently drops the
value (the filtering writer rejects it, no check is generated), while
`write_dict` raises `DatasetUsageError`. -/
theorem c5_write_surfaces_counterexample :
    modeA_write pOneColW false [[]] [1] = .ok [[]] ∧
    modeA_write_dict pOneColW false [[]] (fun _ => 1)
      = .error .datasetUsageError ∧
    modeA_write pOneColW false [[]] [1]
      ≠ modeA_write_dict pOneColW false [[]] (fun _ => 1) := by
  refine ⟨rfl, rfl, ?_⟩
  intro hcontra
  rw [show modeA_write pOneColW false [[]] [1] = .ok [[]] from rfl,
      show modeA_write_dict pOneColW false [[]] (fun _ => 1)
        = .error .datasetUsageError from rfl] at hcontra
  exact Except.noConfusion hcontra

theorem foldl_wAppend_congr (f g : Nat → Val) :
    ∀ (l : List Nat) (cols : List (List Val)), (∀ ix ∈ l, f ix = g ix) →
      l.foldl (fun cs ix => wAppend cs ix (f ix)) cols
        = l.foldl (fun cs ix => wAppend cs ix (g ix)) cols := by
  intro l
  induction l with
  | nil => intro cols _; rfl
  | cons a l ih =>
    intro cols h
    simp only [List.foldl_cons]
    rw [h a (List.mem_cons_self a l)]
    exact ih _ (fun ix hix => h ix (List.mem_cons_of_mem a hix))

/-- Writing a row is determined by the values of the first `n` columns. -/
theorem appendRow_congr (n : Nat) (cols : List (List Val)) (f g : Nat → Val)
    (h : ∀ ix, ix < n → f ix = g ix) :
    appendRow n cols f = appendRow n cols g :=
  foldl_wAppend_congr f g (List.range n) cols
    (fun ix hix => h ix (List.mem_range.mp hix))

theorem appendRow_one (cols : List (List Val)) (g : Nat → Val) :
    appendRow 1 cols g = wAppend cols 0 (g 0) := rfl

/-- C5 amended: the positional, sequence and mapping write surfaces produce
identical results — the same values written to the same per-column
writers, the same routing, the same error behaviour — except in Mode A
when the dataset's only column is the hashlabel and a wrong-slice value is
written without hash discard: then `write` and `write_list` silently drop
the value while `write_dict` raises `DatasetUsageError`.  The three Mode-B
split surfaces are always equivalent. -/
theorem c5_write_surfaces_equivalent (p : SliceParams) (discard : Bool)
    (files : List (List Val)) (args : List Val) (d : String → Val)
    (hdict : ∀ ix, ix < p.n → d (p.names.getD ix "") = args.getD ix 0)
    (hhl : ∀ hix, p.hl = some hix → hix < p.n)
    (hesc : 2 ≤ p.n ∨ p.hl = none ∨ discard = true ∨
      ∀ hix, p.hl = some hix → hashOk p (args.getD hix 0) = true) :
    (modeA_write p discard files args = modeA_write_list p discard files args) ∧
    (modeA_write p discard files args = modeA_write_dict p discard files d) ∧
    (∀ (sp : SplitParams) (st : SplitState) (v : List Val) (d2 : String → Val),
      (∀ ix, ix < sp.n → d2 (sp.names.getD ix "") = v.getD ix 0) →
      (∀ hix, sp.hl = some hix → hix < sp.n) →
      split_write sp st v = split_write_list sp st v ∧
      split_write sp st v = split_write_dict sp st d2) := by
  refine ⟨rfl, ?_, ?_⟩
  · have happ : appendRow p.n files (fun ix => d (p.names.getD ix ""))
        = appendRow p.n files (fun ix => args.getD ix 0) :=
      appendRow_congr p.n files _ _ hdict
    rcases hn : p.hl with _ | hix
    · simp only [modeA_write, modeA_write_dict, hn, happ]
      by_cases h1 : p.n == 1
      · have hn1 : p.n = 1 := by simpa using h1
        rw [if_pos h1, hn1, appendRow_one]
      · rw [if_neg h1]
    · have hixlt : hix < p.n := hhl hix hn
      have hdhl : d (p.names.getD hix "") = args.getD hix 0 := hdict hix hixlt
      simp only [modeA_write, modeA_write_dict, hn, happ, hdhl]
      by_cases h1 : p.n == 1
      · have hn1 : p.n = 1 := by simpa using h1
        have hix0 : hix = 0 := by omega
        subst hix0
        rw [if_pos h1]
        by_cases hok : hashOk p (args.getD 0 0)
        · rw [if_pos hok, if_pos hok, hn1, appendRow_one]
        · rw [if_neg hok, if_neg hok]
          have hdisc : discard = true := by
            rcases hesc with h | h | h | h
            · omega
            · rw [hn] at h
              exact absurd h (by simp)
            · exact h
            · exact absurd (h 0 hn) hok
          rw [hdisc, if_pos rfl]
      · rw [if_neg h1]
  · intro sp st v d2 hd2 hhl2
    refine ⟨rfl, ?_⟩
    rcases hn : sp.hl with _ | hix
    · simp only [split_write, split_write_dict, hn]
      rw [appendRow_congr sp.n (st.files.getD (st.cyc % sp.slices) []) _ _ hd2]
    · have hixlt : hix < sp.n := hhl2 hix hn
      simp only [split_write, split_write_dict, hn, hd2 hix hixlt]
      rw [appendRow_congr sp.n
          (st.files.getD (sp.hash (v.getD hix 0) % sp.slices) []) _ _ hd2]

/-- A two-column Mode-A writer hashed on the first column, slice 1 of 2. -/
def pTwoColW : SliceParams :=
  ⟨2, ["a", "b"], some 0, fun v => v.natAbs, 1, 2⟩

/-- Witness for `c5_write_surfaces_equivalent`: with two columns the three
Mode-A surfaces agree on the row `(1, 5)` presented positionally, as a
list and as a mapping. -/
theorem c5_write_surfaces_equivalent_witness :
    modeA_write pTwoColW false [[], []] [1, 5]
      = modeA_write_dict pTwoColW false [[], []]
          (fun s => if s = "a" then 1 else 5) :=
  (c5_write_surfaces_equivalent pTwoColW false [[], []] [1, 5]
    (fun s => if s = "a" then 1 else 5)
    (by decide) (by decide) (Or.inl (by decide))).2.1

/-! ## C8: round-robin iteration order

dataset.py lines 500-519 (`Dataset.iterate_list` with
`sliceno="roundrobin"`): for each dataset, one iterator per slice is
built, `izip_longest` interleaves them with a unique fill marker, the
tuples are chained and the markers dropped; the datasets are processed one
after the other (`rr_outer`). -/

/-- Sum of the lengths of the per-slice lists strictly decreases when every
list is replaced by its tail and at least one list is nonempty. -/
theorem sum_map_tail_lt (ls : List (List Val)) (h : ls.all List.isEmpty = false) :
    ((ls.map List.tail).map List.length).sum < (ls.map List.length).sum := by
  induction ls with
  | nil => simp at h
  | cons a ls ih =>
    rw [List.all_cons, Bool.and_eq_false_iff] at h
    simp only [List.map_cons, List.sum_cons, List.length_tail]
    rcases h with h | h
    · have ha : 0 < a.length := by
        cases a with
        | nil => simp at h
        | cons x xs => simp
      have hle : ((ls.map List.tail).map List.length).sum
          ≤ (ls.map List.length).sum := by
        clear ih h ha
        induction ls with
        | nil => simp
        | cons b ls ih2 =>
          simp only [List.map_cons, List.sum_cons, List.length_tail]
          omega
      omega
    · have := ih h
      omega

/-- Model of `izip_longest(*todo, fillvalue=fv)` over already-materialised
per-slice sequences (dataset.py line 511): while any sequence has elements
left, emit the tuple of next elements (`none` standing for the unique fill
marker) and advance every sequence. -/
def izipLongest (ls : List (List Val)) : List (List (Option Val)) :=
  if _h : ls.all List.isEmpty then []
  else (ls.map List.head?) :: izipLongest (ls.map List.tail)
termination_by (ls.map List.length).sum
decreasing_by exact sum_map_tail_lt ls (Bool.not_eq_true _ ▸ eq_false_of_ne_true _h)

/-- Model of `rr_inner` (dataset.py lines 503-513) for one dataset: chain
the interleaved tuples and drop the fill markers. -/
def rr_inner (sd : List (List Val)) : List Val :=
  ((izipLongest sd).flatten).filterMap id

/-- Model of `rr_outer` + the final `chain.from_iterable` (dataset.py lines
514-519): datasets one after the other, each interleaved slice-wise. -/
def rr_iterate (dss : List (List (List Val))) : List Val :=
  (dss.map rr_inner).flatten

/-- Length of the longest slice of a dataset. -/
def maxLen (sd : List (List Val)) : Nat :=
  (sd.map List.length).foldr max 0

/-- The order the claim describes: element `i` of slice `0`, then element
`i` of slice `1`, …, then element `i+1` of slice `0`, skipping exhausted
slices, up to the longest slice. -/
def rrClaimOrder (sd : List (List Val)) : List Val :=
  (List.range (maxLen sd)).flatMap (fun i => sd.filterMap (fun s => s[i]?))

theorem maxLen_eq_zero (sd : List (List Val)) (h : sd.all List.isEmpty = true) :
    maxLen sd = 0 := by
  induction sd with
  | nil => rfl
  | cons a ls ih =>
    rw [List.all_cons, Bool.and_eq_true] at h
    have ha : a.length = 0 := by
      cases a with
      | nil => rfl
      | cons x xs => simp at h
    simp only [maxLen, List.map_cons, List.foldr_cons] at ih ⊢
    rw [ha, ih h.2]
    simp

theorem maxLen_map_tail (sd : List (List Val)) :
    maxLen (sd.map List.tail) = maxLen sd - 1 := by
  induction sd with
  | nil => rfl
  | cons a ls ih =>
    simp only [maxLen, List.map_cons, List.foldr_cons, List.length_tail] at ih ⊢
    omega

theorem maxLen_pos (sd : List (List Val)) (h : sd.all List.isEmpty = false) :
    0 < maxLen sd := by
  induction sd with
  | nil => simp at h
  | cons a ls ih =>
    rw [List.all_cons, Bool.and_eq_false_iff] at h
    simp only [maxLen, List.map_cons, List.foldr_cons]
    rcases h with h | h
    · have : 0 < a.length := by
        cases a with
        | nil => simp at h
        | cons x xs => simp
      omega
    · have := ih h
      simp only [maxLen] at this
      omega

/-- Indexing the tail shifts the index. -/
theorem tail_getElem? (l : List Val) (i : Nat) : l.tail[i]? = l[i + 1]? := by
  cases l with
  | nil => rfl
  | cons x xs => rw [List.tail_cons, List.getElem?_cons_succ]

/-- Peeling the first interleave round off the claimed order. -/
theorem rrClaimOrder_step (sd : List (List Val))
    (h : sd.all List.isEmpty = false) :
    rrClaimOrder sd
      = sd.filterMap List.head? ++ rrClaimOrder (sd.map List.tail) := by
  have hsplit : maxLen sd = maxLen (sd.map List.tail) + 1 := by
    have h1 := maxLen_map_tail sd
    have h2 := maxLen_pos sd h
    omega
  unfold rrClaimOrder
  rw [maxLen_map_tail sd, hsplit, Nat.add_sub_cancel, List.range_succ_eq_map,
    List.flatMap_cons, List.flatMap_map]
  congr 1
  · apply List.filterMap_congr
    intro s _
    rw [List.head?_eq_getElem?]
  · apply List.flatMap_congr
    intro i _
    rw [List.filterMap_map]
    apply List.filterMap_congr
    intro s _
    simp only [Function.comp_apply, Nat.succ_eq_add_one]
    rw [tail_getElem?]

/-- The interleave-and-drop-markers implementation yields exactly the
index-major order of the claim. -/
theorem rr_inner_eq_claim : ∀ sd : List (List Val), rr_inner sd = rrClaimOrder sd := by
  intro sd
  generalize hm : (sd.map List.length).sum = m
  induction m using Nat.strong_induction_on generalizing sd with
  | _ m ih =>
    by_cases h : sd.all List.isEmpty
    · rw [rr_inner, izipLongest, dif_pos h]
      rw [rrClaimOrder, maxLen_eq_zero sd h]
      rfl
    · have hfalse : sd.all List.isEmpty = false :=
        Bool.not_eq_true _ ▸ eq_false_of_ne_true h
      have hlt := sum_map_tail_lt sd hfalse
      rw [hm] at hlt
      have ihtail := ih _ hlt (sd.map List.tail) rfl
      rw [rr_inner, izipLongest, dif_neg h, List.flatten_cons,
        List.filterMap_append]
      rw [show ((izipLongest (sd.map List.tail)).flatten).filterMap id
            = rr_inner (sd.map List.tail) from rfl, ihtail]
      rw [rrClaimOrder_step sd hfalse]
      congr 1
      rw [List.filterMap_map, Function.id_comp]

/-- C8: with `sliceno="roundrobin"`, for each dataset in turn the iterator
yields element `i` of slice 0, then element `i` of slice 1, …, through the
last slice, then element `i+1` of slice 0, and so on, skipping exhausted
slices, until the longest slice of that dataset is exhausted, before
moving on to the next dataset. -/
theorem c8_roundrobin_order (dss : List (List (List Val))) :
    rr_iterate dss = (dss.map rrClaimOrder).flatten := by
  rw [rr_iterate]
  congr 1
  exact List.map_congr_left (fun sd _ => rr_inner_eq_claim sd)

/-! ## C1: write/iterate round trip

The writer stores each accepted row in exactly one slice, every column of
the row going to that slice's file for the column (`_mkwritefuncs`,
`_mksplit`; the hash or round-robin routing and the three surfaces are
verified separately under C4/C5, so here a write sequence is a list of
`(slice, row)` pairs).  `DatasetWriter._close` (dataset.py lines
1108-1118) records `lines[slice]` as the common count of the per-column
writers of that slice.  Reading back, `Dataset._iterator` (lines 336-345)
opens one lazy reader per column in sorted column order and
`_iterate_datasets` zips them into row tuples (line 648, `izip`);
`iterate_list` with `sliceno=None` (lines 478-481) enumerates all slices
in index order, and skips datasets with `sum(lines) == 0` (line 464). -/

/-- A row: one value per column, in sorted column order. -/
abbrev Row := List Val

/-- One write: append the row to its routed slice's bucket (each column
writer of that slice receives the matching value). -/
def writeRowTo (buckets : List (List Row)) (s : Nat) (r : Row) :
    List (List Row) :=
  buckets.set s (buckets.getD s [] ++ [r])

/-- Run a full write sequence of `(slice, row)` pairs against initially
empty buckets, one bucket per slice. -/
def writeAll (slices : Nat) (ws : List (Nat × Row)) : List (List Row) :=
  ws.foldl (fun b p => writeRowTo b p.1 p.2) (List.replicate slices [])

/-- The `lines` list recorded at finish: per slice, the common `count` of
that slice's column writers (`DatasetWriter._close`). -/
def finishLines (buckets : List (List Row)) : List Nat :=
  buckets.map List.length

/-- The on-disk column file of column `c` for one slice: the `c`-th value
of each row written to that slice, in write order. -/
def colFile (bucket : List Row) (c : Nat) : List Val :=
  bucket.map (fun r => r.getD c 0)

/-- Zip a nonempty family of column readers into rows, stopping at the
shortest (`izip` in `_iterate_datasets`, dataset.py line 648): structural
worker on the first reader. -/
def zipNAux : List Val → List (List Val) → List Row
  | [], _ => []
  | x :: xs, rest =>
    match rest.mapM List.head? with
    | none => []
    | some hs => (x :: hs) :: zipNAux xs (rest.map List.tail)

/-- Model of `izip(*column_iterators)`. -/
def zipN : List (List Val) → List Row
  | [] => []
  | first :: rest => zipNAux first rest

/-- Model of `Dataset._iterator` for one slice followed by the `izip` of
`_iterate_datasets`: read every column file of the slice and zip. -/
def iterSlice (n : Nat) (bucket : List Row) : List Row :=
  zipN ((List.range n).map (colFile bucket))

/-- The rows stored for slice `s`. -/
def getBucket (buckets : List (List Row)) (s : Nat) : List Row :=
  buckets.getD s []

/-- Model of `Dataset.iterate(sliceno, columns=all)` on the finished
dataset (no filters, no translators, no range, no rehash): datasets whose
`sum(lines)` is 0 are skipped by `iterate_list`; `sliceno=None` walks all
slices in index order; `sliceno=s` reads one slice. -/
def iterateDataset (slices n : Nat) (buckets : List (List Row))
    (sliceno : Option Nat) : List Row :=
  if (finishLines buckets).sum = 0 then []
  else
    match sliceno with
    | none => (List.range slices).flatMap (fun s => iterSlice n (getBucket buckets s))
    | some s => iterSlice n (getBucket buckets s)

/-- Reading a list back by indices 0…length-1 reproduces it. -/
theorem map_getD_range {α : Type} (d : α) :
    ∀ (r : List α) (n : Nat), r.length = n →
      (List.range n).map (fun c => r.getD c d) = r := by
  intro r
  induction r with
  | nil =>
    intro n hn
    rw [← hn]
    rfl
  | cons a r ih =>
    intro n hn
    rw [← hn, List.length_cons, List.range_succ_eq_map, List.map_cons,
      List.getD_cons_zero, List.map_map]
    congr 1
    rw [show ((fun c => (a :: r).getD c d) ∘ Nat.succ)
          = fun c => r.getD c d by
        funext c
        rw [Function.comp_apply, List.getD_cons_succ]]
    exact ih r.length rfl

theorem mapM_head?_eq (ls : List (List Val)) (h : ∀ l ∈ ls, l ≠ []) :
    ls.mapM List.head? = some (ls.map (fun l => l.headD 0)) := by
  induction ls with
  | nil => rfl
  | cons a ls ih =>
    rw [List.mapM_cons]
    have ha : a.head? = some (a.headD 0) := by
      cases a with
      | nil => exact absurd rfl (h [] (List.mem_cons_self [] ls))
      | cons x xs => rfl
    rw [ha, ih (fun l hl => h l (List.mem_cons_of_mem a hl))]
    rfl

/-- Zipping the per-column files of a rectangular bucket reproduces the
bucket's rows: the round-trip core. -/
theorem zipN_cols (m : Nat) :
    ∀ rows : List Row, (∀ r ∈ rows, r.length = m + 1) →
      zipN ((List.range (m + 1)).map (colFile rows)) = rows := by
  intro rows
  induction rows with
  | nil =>
    intro _
    rw [List.range_succ_eq_map, List.map_cons]
    rfl
  | cons r rs ih =>
    intro hrows
    have hr : r.length = m + 1 := hrows r (List.mem_cons_self r rs)
    rw [List.range_succ_eq_map, List.map_cons, List.map_map]
    rw [show colFile (r :: rs) 0 = r.getD 0 0 :: colFile rs 0 from rfl]
    rw [zipN, zipNAux]
    have hnonempty : ∀ l ∈ (List.range m).map (colFile (r :: rs) ∘ Nat.succ),
        l ≠ [] := by
      intro l hl
      rcases List.mem_map.mp hl with ⟨c, _, hcl⟩
      rw [← hcl]
      simp [colFile]
    rw [mapM_head?_eq _ hnonempty]
    simp only [List.map_map]
    have hhead : ((List.range m).map
          ((fun l => l.headD 0) ∘ (colFile (r :: rs) ∘ Nat.succ)))
        = (List.range m).map (fun c => r.getD (c + 1) 0) := by
      apply List.map_congr_left
      intro c _
      rfl
    have htail : ((List.range m).map
          (List.tail ∘ (colFile (r :: rs) ∘ Nat.succ)))
        = (List.range m).map (colFile rs ∘ Nat.succ) := by
      apply List.map_congr_left
      intro c _
      rfl
    rw [hhead, htail]
    congr 1
    · have hform : (List.range m).map (fun c => r.getD (c + 1) 0)
          = ((List.range m).map Nat.succ).map (fun c => r.getD c 0) := by
        rw [List.map_map]
        rfl
      rw [hform]
      have := map_getD_range (0 : Val) r (m + 1) hr
      rw [List.range_succ_eq_map, List.map_cons] at this
      exact this
    · have harg : colFile rs 0 :: (List.range m).map (colFile rs ∘ Nat.succ)
          = (List.range (m + 1)).map (colFile rs) := by
        rw [List.range_succ_eq_map, List.map_cons, List.map_map]
      rw [show zipNAux (colFile rs 0) ((List.range m).map (colFile rs ∘ Nat.succ))
            = zipN (colFile rs 0 :: (List.range m).map (colFile rs ∘ Nat.succ))
          from rfl, harg]
      exact ih (fun q hq => hrows q (List.mem_cons_of_mem r hq))

theorem getD_set_self {α : Type} (l : List α) (s : Nat) (a d : α)
    (hs : s < l.length) : (l.set s a).getD s d = a := by
  rw [List.getD_eq_getElem _ _ (by rw [List.length_set]; exact hs)]
  exact List.getElem_set_self _

theorem getD_set_ne {α : Type} (l : List α) (i s : Nat) (a d : α)
    (h : i ≠ s) : (l.set i a).getD s d = l.getD s d := by
  by_cases hs : s < l.length
  · rw [List.getD_eq_getElem _ _ (by rw [List.length_set]; exact hs),
      List.getD_eq_getElem _ _ hs]
    exact List.getElem_set_ne h _
  · rw [List.getD_eq_default _ _ (by rw [List.length_set]; omega),
      List.getD_eq_default _ _ (by omega)]

theorem foldl_write_length (ws : List (Nat × Row)) :
    ∀ buckets : List (List Row),
      (ws.foldl (fun b p => writeRowTo b p.1 p.2) buckets).length
        = buckets.length := by
  induction ws with
  | nil => intro buckets; rfl
  | cons w ws ih =>
    intro buckets
    rw [List.foldl_cons, ih]
    simp [writeRowTo]

/-- The bucket of slice `s` after a write sequence holds exactly the rows
routed to `s`, in write order. -/
theorem foldl_write_getD (s : Nat) :
    ∀ (ws : List (Nat × Row)) (buckets : List (List Row)),
      s < buckets.length →
      (ws.foldl (fun b p => writeRowTo b p.1 p.2) buckets).getD s []
        = buckets.getD s [] ++ (ws.filter (fun p => p.1 == s)).map (·.2) := by
  intro ws
  induction ws with
  | nil =>
    intro buckets _
    simp
  | cons w ws ih =>
    intro buckets hs
    rw [List.foldl_cons,
      ih (writeRowTo buckets w.1 w.2) (by simp [writeRowTo]; omega),
      List.filter_cons]
    by_cases hws : w.1 = s
    · rw [if_pos (by simpa using hws), List.map_cons]
      rw [show writeRowTo buckets w.1 w.2
            = buckets.set s (buckets.getD s [] ++ [w.2]) by
          rw [writeRowTo, hws]]
      rw [getD_set_self _ _ _ _ hs, List.append_assoc, List.singleton_append]
    · rw [if_neg (by simpa using hws), writeRowTo,
        getD_set_ne _ _ _ _ _ hws]

theorem writeAll_length (slices : Nat) (ws : List (Nat × Row)) :
    (writeAll slices ws).length = slices := by
  rw [writeAll, foldl_write_length]
  exact List.length_replicate slices []

theorem writeAll_getD (slices : Nat) (ws : List (Nat × Row)) (s : Nat)
    (hs : s < slices) :
    getBucket (writeAll slices ws) s = (ws.filter (fun p => p.1 == s)).map (·.2) := by
  rw [getBucket, writeAll,
    foldl_write_getD s ws (List.replicate slices []) (by simpa using hs)]
  rw [List.getD_eq_getElem _ _ (by simpa using hs), List.getElem_replicate]
  rfl

theorem flatMap_single (l0 : List Row) (i : Nat) :
    ∀ n : Nat, i < n →
      (List.range n).flatMap (fun s => if i = s then l0 else []) = l0 := by
  intro n
  induction n with
  | zero => intro h; omega
  | succ n ihn =>
    intro hi
    rw [List.range_succ, List.flatMap_append]
    by_cases hin : i = n
    · rw [show (List.range n).flatMap (fun s => if i = s then l0 else [])
            = [] by
          rw [List.flatMap_eq_nil_iff]
          intro s hsmem
          rw [if_neg (by have := List.mem_range.mp hsmem; omega)]]
      rw [List.nil_append, List.flatMap_cons, if_pos hin]
      simp
    · rw [ihn (by omega), List.flatMap_cons, if_neg hin]
      simp

/-- Interleaving two per-slice contributions is a permutation of their
separate concatenations. -/
theorem flatMap_append_perm (g1 g2 : Nat → List Row) :
    ∀ l : List Nat,
      (l.flatMap fun s => g1 s ++ g2 s).Perm (l.flatMap g1 ++ l.flatMap g2) := by
  intro l
  induction l with
  | nil => simp
  | cons a l ih =>
    simp only [List.flatMap_cons]
    have h1 : ((g1 a ++ g2 a) ++ l.flatMap fun s => g1 s ++ g2 s).Perm
        ((g1 a ++ g2 a) ++ (l.flatMap g1 ++ l.flatMap g2)) :=
      List.Perm.append_left _ ih
    apply h1.trans
    rw [List.append_assoc, List.append_assoc]
    apply List.Perm.append_left
    rw [← List.append_assoc, ← List.append_assoc]
    apply List.Perm.append_right
    exact List.perm_append_comm

/-- Distributing a write sequence over per-slice buckets and concatenating
the buckets back is a permutation of the written rows. -/
theorem buckets_flatMap_perm (slices : Nat) :
    ∀ ws : List (Nat × Row), (∀ p ∈ ws, p.1 < slices) →
      ((List.range slices).flatMap
        (fun s => (ws.filter (fun p => p.1 == s)).map (·.2))).Perm
        (ws.map (·.2)) := by
  intro ws
  induction ws with
  | nil =>
    intro _
    simp
  | cons w ws ihw =>
    intro hws
    have hsplit : ∀ s, ((w :: ws).filter (fun p => p.1 == s)).map (·.2)
        = (if w.1 = s then [w.2] else [])
          ++ (ws.filter (fun p => p.1 == s)).map (·.2) := by
      intro s
      rw [List.filter_cons]
      by_cases hws1 : w.1 = s
      · rw [if_pos (by simpa using hws1), if_pos hws1, List.map_cons,
          List.singleton_append]
      · rw [if_neg (by simpa using hws1), if_neg hws1, List.nil_append]
    rw [List.flatMap_congr (fun s _ => hsplit s)]
    apply (flatMap_append_perm _ _ (List.range slices)).trans
    rw [flatMap_single [w.2] w.1 slices (hws w (List.mem_cons_self w ws)),
      List.singleton_append, List.map_cons]
    exact List.Perm.cons w.2 (ihw (fun p hp => hws p (List.mem_cons_of_mem w hp)))

/-- C1: for a finished non-meta-only dataset produced by a sequence of `L`
accepted row writes across slices, `iterate(sliceno=None)` over all
columns with no filters yields exactly those `L` rows up to order (multiset
equality), and `iterate(sliceno=s)` yields exactly `lines[s]` rows for
every slice `s`. -/
theorem c1_roundtrip (slices m : Nat) (ws : List (Nat × Row))
    (hws : ∀ p ∈ ws, p.1 < slices ∧ p.2.length = m + 1) :
    (iterateDataset slices (m + 1) (writeAll slices ws) none).Perm
      (ws.map (·.2)) ∧
    (∀ s, s < slices →
      (iterateDataset slices (m + 1) (writeAll slices ws) (some s)).length
        = (finishLines (writeAll slices ws)).getD s 0) := by
  set B := writeAll slices ws with hB
  have hbucket : ∀ s, s < slices →
      getBucket B s = (ws.filter (fun p => p.1 == s)).map (·.2) := by
    intro s hs
    rw [hB, writeAll_getD slices ws s hs]
  have hrect : ∀ s, s < slices → ∀ r ∈ getBucket B s, r.length = m + 1 := by
    intro s hs r hr
    rw [hbucket s hs] at hr
    rcases List.mem_map.mp hr with ⟨p, hp, hpr⟩
    rw [← hpr]
    exact (hws p (List.mem_filter.mp hp).1).2
  have hiter : ∀ s, s < slices →
      iterSlice (m + 1) (getBucket B s) = getBucket B s := by
    intro s hs
    exact zipN_cols m (getBucket B s) (hrect s hs)
  have hperm : ((List.range slices).flatMap
      (fun s => iterSlice (m + 1) (getBucket B s))).Perm (ws.map (·.2)) := by
    rw [List.flatMap_congr (fun s hsmem => by
      rw [hiter s (List.mem_range.mp hsmem), hbucket s (List.mem_range.mp hsmem)])]
    exact buckets_flatMap_perm slices ws (fun p hp => (hws p hp).1)
  constructor
  · rw [iterateDataset]
    by_cases hsum : (finishLines B).sum = 0
    · rw [if_pos hsum]
      have hall : ∀ x ∈ finishLines B, x = 0 := List.sum_eq_zero_iff.mp hsum
      have hwsnil : ws.map (·.2) = [] := by
        have hlen2 := hperm.length_eq
        rw [List.length_flatMap] at hlen2
        have hzero : ((List.range slices).map
            (List.length ∘ fun s => iterSlice (m + 1) (getBucket B s))).sum = 0 := by
          rw [List.sum_eq_zero_iff]
          intro x hx
          rcases List.mem_map.mp hx with ⟨s, hsmem, hsx⟩
          have hs := List.mem_range.mp hsmem
          rw [← hsx, Function.comp_apply, hiter s hs]
          apply hall
          rw [finishLines]
          have hsB : s < B.length := by
            rw [hB, writeAll_length]
            exact hs
          have hgb : (getBucket B s).length = B[s].length := by
            rw [getBucket, List.getD_eq_getElem _ _ hsB]
          rw [hgb]
          exact List.mem_map.mpr ⟨B[s], List.getElem_mem _, rfl⟩
        rw [hzero] at hlen2
        exact List.length_eq_zero.mp hlen2.symm
      rw [hwsnil]
    · rw [if_neg hsum]
      exact hperm
  · intro s hs
    have hsB : s < B.length := by
      rw [hB, writeAll_length]
      exact hs
    have hlines : (finishLines B).getD s 0 = (getBucket B s).length := by
      rw [finishLines, List.getD_eq_getElem _ _ (by simpa using hsB),
        List.getElem_map, getBucket, List.getD_eq_getElem _ _ hsB]
    rw [iterateDataset]
    by_cases hsum : (finishLines B).sum = 0
    · rw [if_pos hsum]
      have hall : ∀ x ∈ finishLines B, x = 0 := List.sum_eq_zero_iff.mp hsum
      rw [hlines] at *
      have : (getBucket B s).length = 0 := by
        apply hall
        rw [finishLines]
        rw [getBucket, List.getD_eq_getElem _ _ hsB]
        exact List.mem_map.mpr ⟨B[s], List.getElem_mem _, rfl⟩
      rw [← hlines] at this ⊢
      rw [this]
      rfl
    · rw [if_neg hsum]
      rw [hiter s hs, hlines]

/-- Witness for `c1_roundtrip`: two slices, rows `(1,2), (3,4), (5,6)`
written to slices 0, 1, 0. -/
theorem c1_roundtrip_witness :
    (iterateDataset 2 2 (writeAll 2 [(0, [1, 2]), (1, [3, 4]), (0, [5, 6])])
      none).Perm [[1, 2], [3, 4], [5, 6]] ∧
    (iterateDataset 2 2 (writeAll 2 [(0, [1, 2]), (1, [3, 4]), (0, [5, 6])])
      (some 0)).length
      = (finishLines (writeAll 2 [(0, [1, 2]), (1, [3, 4]), (0, [5, 6])])).getD 0 0 := by
  have h := c1_roundtrip 2 1 [(0, [1, 2]), (1, [3, 4]), (0, [5, 6])] (by decide)
  exact ⟨h.1, h.2 0 (by decide)⟩

end Accel
